import Mathlib

/-!
Verification of the dashboard-plugins-api-hub mastery aggregation,
relation enrichment, and environment configuration, as implemented in
src/index.ts and src/routes/math.routes.ts.

Shallow embedding conventions:
* Database rows become Lean structures whose fields follow the columns the
  routes select.
* A timestamp string is modelled by its parsed instant: `some t` for a
  well-formed timestamp, `none` for a malformed one (JavaScript `new Date`
  on a malformed string yields an Invalid Date whose numeric value is NaN,
  and every comparison against NaN is false).
* The JavaScript `Map` keyed by standard code is modelled as a list of
  accumulators in insertion order with unique `standard_code` keys, which
  is exactly the observable behaviour of `Map`.
* JavaScript truthiness tests are modelled field by field: a missing or
  zero `response_time_ms` is falsy, a missing or empty-string id is falsy.
-/

set_option maxRecDepth 8000

namespace DashboardHub

/-- A practice-history row as selected by the mastery route
(src/routes/math.routes.ts lines 136-149). `created_at` is the parsed
instant of the stored timestamp: `none` models a malformed timestamp. -/
structure Practice where
  correct : Bool
  response_time_ms : Option Nat
  created_at : Option Int
  module_id : Option String
  topic_id : Option String
  question_id : Option String
  question_type : String
  reference_question_id : Option String
deriving DecidableEq

/-- A questions-pool row as selected by the mastery route
(src/routes/math.routes.ts lines 174-177). `ny_standards_codes` is the
stored code list; `none` models a NULL column, which the route skips. -/
structure Question where
  id : String
  ny_standards_codes : Option (List String)
  module_id : Option String
  topic_id : Option String
deriving DecidableEq

/-- The mutable accumulator stored in `masteryMap`
(src/routes/math.routes.ts lines 199-224). -/
structure MasteryAcc where
  standard_code : String
  module_id : Option String
  topic_id : Option String
  total_attempts : Nat
  correct_count : Nat
  incorrect_count : Nat
  response_times : List Nat
  last_attempted : Option Int
deriving DecidableEq

/-- A finalized mastery record as produced by the route
(src/routes/math.routes.ts lines 229-243). `mastery_percentage` is the
exact rational the formula denotes; `avg_response_time_ms` is `none` when
no latency was collected (the route emits null). -/
structure MasteryRecord where
  standard_code : String
  module_id : Option String
  topic_id : Option String
  total_attempts : Nat
  correct_count : Nat
  incorrect_count : Nat
  mastery_percentage : ℚ
  avg_response_time_ms : Option Int
  last_attempted : Option Int
deriving DecidableEq

/-- JavaScript `Math.round`: round half towards positive infinity. -/
def jsRound (x : ℚ) : Int :=
  ⌊x + 1 / 2⌋

/-- JavaScript `new Date(a) > new Date(b)` on parsed instants: strict
comparison when both parse, false whenever either side is NaN. -/
def jsDateGt (a b : Option Int) : Bool :=
  match a, b with
  | some x, some y => y < x
  | _, _ => false

/-- JavaScript `a || b` on nullable id strings: a present non-empty string
is truthy, a missing or empty string falls through to `b`. -/
def jsOrId (a b : Option String) : Option String :=
  match a with
  | some s => if s = "" then b else some s
  | none => b

/-- The effective question id of an attempt
(src/routes/math.routes.ts line 192): `question_id` when `question_type`
is the string "saved", `reference_question_id` for every other value. -/
def resolvedQuestionId (p : Practice) : Option String :=
  if p.question_type = "saved" then p.question_id else p.reference_question_id

/-- Catalog lookup for an attempt (src/routes/math.routes.ts line 193):
`questionId ? questionsMap.get(questionId) : null`. A missing or empty
(falsy) id yields no question. -/
def resolveQuestion (qmap : String → Option Question) (p : Practice) : Option Question :=
  match resolvedQuestionId p with
  | some qid => if qid = "" then none else qmap qid
  | none => none

/-- The list of standard codes an attempt is exploded across, with
multiplicity and order as iterated by the route: empty when the question
is unresolved or its code column is NULL. -/
def attemptCodes (qmap : String → Option Question) (p : Practice) : List String :=
  match resolveQuestion qmap p with
  | some q =>
    match q.ny_standards_codes with
    | some codes => codes
    | none => []
  | none => []

/-- The fresh accumulator installed on first sight of a standard code
(src/routes/math.routes.ts lines 200-209). -/
def initAcc (code : String) (p : Practice) (q : Question) : MasteryAcc :=
  { standard_code := code
    module_id := jsOrId p.module_id q.module_id
    topic_id := jsOrId p.topic_id q.topic_id
    total_attempts := 0
    correct_count := 0
    incorrect_count := 0
    response_times := []
    last_attempted := p.created_at }

/-- The in-place mutation of one accumulator for one observation of the
attempt (src/routes/math.routes.ts lines 212-224). Note the truthiness
test on `response_time_ms`: a zero latency is not pushed. -/
def updateAcc (p : Practice) (m : MasteryAcc) : MasteryAcc :=
  { m with
    total_attempts := m.total_attempts + 1
    correct_count := if p.correct then m.correct_count + 1 else m.correct_count
    incorrect_count := if p.correct then m.incorrect_count else m.incorrect_count + 1
    response_times :=
      match p.response_time_ms with
      | some v => if v = 0 then m.response_times else m.response_times ++ [v]
      | none => m.response_times
    last_attempted :=
      if jsDateGt p.created_at m.last_attempted then p.created_at else m.last_attempted }

/-- Whether the map already holds an accumulator for `code`
(`masteryMap.has(standardCode)`). -/
def hasCode (map : List MasteryAcc) (code : String) : Bool :=
  map.any (fun m => m.standard_code = code)

/-- The body of `ny_standards_codes.forEach`
(src/routes/math.routes.ts lines 198-225): create the accumulator if
absent, then mutate it. -/
def processCode (p : Practice) (q : Question) (map : List MasteryAcc) (code : String) :
    List MasteryAcc :=
  if hasCode map code then
    map.map (fun m => if m.standard_code = code then updateAcc p m else m)
  else
    map ++ [updateAcc p (initAcc code p q)]

/-- The body of `practiceHistory.forEach`
(src/routes/math.routes.ts lines 190-226): resolve the question, skip the
attempt when the question or its code column is missing, otherwise fold
over the code list. -/
def processPractice (qmap : String → Option Question) (map : List MasteryAcc) (p : Practice) :
    List MasteryAcc :=
  match resolveQuestion qmap p with
  | none => map
  | some q =>
    match q.ny_standards_codes with
    | none => map
    | some codes => codes.foldl (processCode p q) map

/-- The fully folded `masteryMap`, in insertion order. -/
def masteryFold (qmap : String → Option Question) (attempts : List Practice) :
    List MasteryAcc :=
  attempts.foldl (processPractice qmap) []

/-- Finalization of one accumulator (src/routes/math.routes.ts lines
229-243): percentage to one decimal, mean latency to nearest integer,
null when no latency was collected. -/
def finalizeAcc (m : MasteryAcc) : MasteryRecord :=
  { standard_code := m.standard_code
    module_id := m.module_id
    topic_id := m.topic_id
    total_attempts := m.total_attempts
    correct_count := m.correct_count
    incorrect_count := m.incorrect_count
    mastery_percentage :=
      if 0 < m.total_attempts then
        (jsRound ((m.correct_count : ℚ) / (m.total_attempts : ℚ) * 100 * 10) : ℚ) / 10
      else 0
    avg_response_time_ms :=
      if 0 < m.response_times.length then
        some (jsRound ((m.response_times.sum : ℚ) / (m.response_times.length : ℚ)))
      else none
    last_attempted := m.last_attempted }

/-- The mastery aggregation: the fold of the route followed by finalization,
matching the contract computeMastery(attempts, catalog). -/
def computeMastery (attempts : List Practice) (qmap : String → Option Question) :
    List MasteryRecord :=
  (masteryFold qmap attempts).map finalizeAcc

/-- The aggregation as seen by the try/catch of the route. The body of the
fold contains no throwing operation: JavaScript `new Date` applied to a
malformed string evaluates to an Invalid Date rather than throwing, and
arithmetic on the accumulators cannot throw, so the computation always
returns a result and the catch branch is unreachable from this region. -/
def computeMasteryE (attempts : List Practice) (qmap : String → Option Question) :
    Except String (List MasteryRecord) :=
  Except.ok (computeMastery attempts qmap)

/-! Specification-side notions used to state the claims: how often one
attempt observes one code, the total observation count, the instants and
latencies contributed to one code, and the maximum of a list of instants. -/

/-- How many times one attempt observes `code` (occurrences in the code
list of its resolved question; zero when the attempt is skipped). -/
def codeCount (qmap : String → Option Question) (p : Practice) (code : String) : Nat :=
  (attemptCodes qmap p).count code

/-- Total number of observations of `code` across a list of attempts,
counted with multiplicity. -/
def observationCount (qmap : String → Option Question) (attempts : List Practice)
    (code : String) : Nat :=
  (attempts.map (fun p => codeCount qmap p code)).sum

/-- The parsed instants of the attempts that contribute to `code`. -/
def contributingInstants (qmap : String → Option Question) (attempts : List Practice)
    (code : String) : List Int :=
  (attempts.filter (fun p => decide (code ∈ attemptCodes qmap p))).filterMap
    (fun p => p.created_at)

/-- The latency contribution of one attempt to one code, observed `k`
times: nothing when the latency is missing or zero (falsy in the source),
otherwise `k` copies. -/
def repRT (k : Nat) (p : Practice) : List Nat :=
  match p.response_time_ms with
  | some v => if v = 0 then [] else List.replicate k v
  | none => []

/-- All latencies collected for `code` across the attempts, in collection
order. -/
def collectedLatencies (qmap : String → Option Question) (attempts : List Practice)
    (code : String) : List Nat :=
  (attempts.map (fun p => repRT (codeCount qmap p code) p)).flatten

/-- Maximum of a list of instants, `none` for the empty list. -/
def listMax : List Int → Option Int
  | [] => none
  | x :: xs => some (xs.foldl max x)

/-- The standard codes of the accumulators, in map insertion order. -/
def mapCodes (map : List MasteryAcc) : List String :=
  map.map (fun m => m.standard_code)

/-- First occurrence of each element, in order of first appearance: the
key order a JavaScript `Map` produces from repeated `set` calls. -/
def firstOccurs : List String → List String
  | [] => []
  | c :: cs => c :: (firstOccurs cs).filter (fun x => decide (x ≠ c))

/-- Applying `k` observations of the attempt `p` to one accumulator in a
single step: the net effect of `k` consecutive `updateAcc` applications. -/
def bump (k : Nat) (p : Practice) (m : MasteryAcc) : MasteryAcc :=
  if k = 0 then m else
  { m with
    total_attempts := m.total_attempts + k
    correct_count := m.correct_count + (if p.correct then k else 0)
    incorrect_count := m.incorrect_count + (if p.correct then 0 else k)
    response_times := m.response_times ++ repRT k p
    last_attempted :=
      if jsDateGt p.created_at m.last_attempted then p.created_at else m.last_attempted }

/-! Basic algebra of the accumulator operations. -/

theorem jsDateGt_irrefl (x : Option Int) : jsDateGt x x = false := by
  cases x <;> simp [jsDateGt]

theorem updateAcc_code (p : Practice) (m : MasteryAcc) :
    (updateAcc p m).standard_code = m.standard_code := rfl

theorem initAcc_code (code : String) (p : Practice) (q : Question) :
    (initAcc code p q).standard_code = code := rfl

theorem repRT_zero (p : Practice) : repRT 0 p = [] := by
  cases hrt : p.response_time_ms <;> simp [repRT, hrt]

theorem repRT_append (i j : Nat) (p : Practice) :
    repRT i p ++ repRT j p = repRT (i + j) p := by
  cases hrt : p.response_time_ms
  · simp [repRT, hrt]
  · rename_i v
    by_cases hv : v = 0
    · simp [repRT, hrt, hv]
    · simp only [repRT, hrt, hv, if_false, ite_false]
      rw [List.replicate_add]

theorem updateAcc_rts (p : Practice) (m : MasteryAcc) :
    (updateAcc p m).response_times = m.response_times ++ repRT 1 p := by
  cases hrt : p.response_time_ms <;> simp [updateAcc, repRT, hrt]
  split <;> simp

theorem bump_zero (p : Practice) (m : MasteryAcc) : bump 0 p m = m := by
  simp [bump]

theorem bump_code (k : Nat) (p : Practice) (m : MasteryAcc) :
    (bump k p m).standard_code = m.standard_code := by
  cases k <;> simp [bump]

theorem bump_module (k : Nat) (p : Practice) (m : MasteryAcc) :
    (bump k p m).module_id = m.module_id := by
  cases k <;> simp [bump]

theorem bump_topic (k : Nat) (p : Practice) (m : MasteryAcc) :
    (bump k p m).topic_id = m.topic_id := by
  cases k <;> simp [bump]

theorem bump_total (k : Nat) (p : Practice) (m : MasteryAcc) :
    (bump k p m).total_attempts = m.total_attempts + k := by
  cases k <;> simp [bump]

theorem bump_correct (k : Nat) (p : Practice) (m : MasteryAcc) :
    (bump k p m).correct_count = m.correct_count + (if p.correct then k else 0) := by
  cases k <;> cases hc : p.correct <;> simp [bump, hc]

theorem bump_incorrect (k : Nat) (p : Practice) (m : MasteryAcc) :
    (bump k p m).incorrect_count = m.incorrect_count + (if p.correct then 0 else k) := by
  cases k <;> cases hc : p.correct <;> simp [bump, hc]

theorem bump_rts (k : Nat) (p : Practice) (m : MasteryAcc) :
    (bump k p m).response_times = m.response_times ++ repRT k p := by
  cases k <;> simp [bump, repRT_zero]

theorem bump_last_pos (k : Nat) (hk : k ≠ 0) (p : Practice) (m : MasteryAcc) :
    (bump k p m).last_attempted =
      if jsDateGt p.created_at m.last_attempted then p.created_at else m.last_attempted := by
  simp [bump, hk]

theorem updateAcc_eq_bump_one (p : Practice) (m : MasteryAcc) :
    updateAcc p m = bump 1 p m := by
  obtain ⟨code, mid, tid, t, c, i, rts, last⟩ := m
  cases hc : p.correct <;> cases hrt : p.response_time_ms <;>
    simp [updateAcc, bump, repRT, hc, hrt] <;>
    split <;> simp

theorem bump_updateAcc (k : Nat) (p : Practice) (m : MasteryAcc) :
    bump k p (updateAcc p m) = bump (k + 1) p m := by
  cases k with
  | zero => rw [bump_zero, updateAcc_eq_bump_one]
  | succ n =>
    obtain ⟨code, mid, tid, t, c, i, rts, last⟩ := m
    rw [updateAcc_eq_bump_one]
    simp only [bump, repRT]
    norm_num
    refine ⟨by omega, ?_, ?_, ?_, ?_⟩
    · cases hc : p.correct <;> simp <;> omega
    · cases hc : p.correct <;> simp <;> omega
    · cases hrt : p.response_time_ms <;> simp
      split <;> simp [List.replicate_add, List.replicate_succ]
    · by_cases hgt : jsDateGt p.created_at last = true
      · simp [hgt, jsDateGt_irrefl]
      · simp [hgt]

/-! Lemmas about the map-of-accumulators representation. -/

theorem hasCode_iff (map : List MasteryAcc) (code : String) :
    hasCode map code = true ↔ ∃ m ∈ map, m.standard_code = code := by
  simp [hasCode]

theorem hasCode_false_ne (map : List MasteryAcc) (c : String) (h : hasCode map c = false) :
    ∀ m ∈ map, m.standard_code ≠ c := by
  intro m hm
  simp [hasCode, List.any_eq_false] at h
  exact h m hm

theorem hasCode_update (map : List MasteryAcc) (c : String) (p : Practice) (x : String) :
    hasCode (map.map (fun m => if m.standard_code = c then updateAcc p m else m)) x =
      hasCode map x := by
  simp only [hasCode, List.any_map]
  congr 1
  funext m
  by_cases hm : m.standard_code = c <;> simp [Function.comp, hm, updateAcc_code]

theorem hasCode_append_one (map : List MasteryAcc) (u : MasteryAcc) (x : String) :
    hasCode (map ++ [u]) x = (hasCode map x || decide (u.standard_code = x)) := by
  simp [hasCode, List.any_append]

theorem mem_firstOccurs (x : String) (l : List String) : x ∈ firstOccurs l ↔ x ∈ l := by
  induction l with
  | nil => simp [firstOccurs]
  | cons c cs ih =>
    by_cases hxc : x = c <;> simp [firstOccurs, List.mem_filter, ih, hxc]

theorem nodup_firstOccurs (l : List String) : (firstOccurs l).Nodup := by
  induction l with
  | nil => simp [firstOccurs]
  | cons c cs ih =>
    simp only [firstOccurs, List.nodup_cons]
    constructor
    · simp [List.mem_filter]
    · exact ih.filter _

/-- The accumulators appended by folding the code list of one attempt: one per
code not yet in the map, in first-occurrence order, each created fresh and
then updated once per occurrence. -/
def newEntries (p : Practice) (q : Question) (map : List MasteryAcc) (cs : List String) :
    List MasteryAcc :=
  ((firstOccurs cs).filter (fun c => !hasCode map c)).map
    (fun c => bump (cs.count c) p (initAcc c p q))

/-- Closed form of the inner fold over the code list of one attempt: every
existing accumulator is bumped once per occurrence of its code, and a new
accumulator is appended for each fresh code. -/
theorem foldCodes_eq (p : Practice) (q : Question) :
    ∀ (cs : List String) (map : List MasteryAcc),
      cs.foldl (processCode p q) map =
        map.map (fun m => bump (cs.count m.standard_code) p m) ++ newEntries p q map cs := by
  intro cs
  induction cs with
  | nil =>
    intro map
    simp [newEntries, firstOccurs, bump_zero]
  | cons c cs ih =>
    intro map
    rw [List.foldl_cons]
    by_cases h : hasCode map c = true
    · rw [processCode, if_pos h, ih]
      congr 1
      · rw [List.map_map]
        apply List.map_congr_left
        intro m _
        by_cases hm : m.standard_code = c
        · show bump (cs.count (if m.standard_code = c then updateAcc p m else m).standard_code) p
            (if m.standard_code = c then updateAcc p m else m) = _
          rw [if_pos hm, updateAcc_code, hm, bump_updateAcc, List.count_cons_self]
        · show bump (cs.count (if m.standard_code = c then updateAcc p m else m).standard_code) p
            (if m.standard_code = c then updateAcc p m else m) = _
          rw [if_neg hm, List.count_cons_of_ne hm cs]
      · unfold newEntries
        have hfoA : (firstOccurs (c :: cs)).filter (fun x => !hasCode map x) =
            (firstOccurs cs).filter (fun x => !hasCode map x) := by
          show ((c :: (firstOccurs cs).filter (fun x => decide (x ≠ c))).filter
            (fun x => !hasCode map x)) = _
          rw [List.filter_cons, h]
          simp only [Bool.not_true, Bool.false_eq_true, if_false]
          rw [List.filter_filter]
          apply List.filter_congr
          intro x _
          by_cases hxc : x = c
          · simp [hxc, h]
          · simp [hxc]
        rw [hfoA]
        have hfilter : (firstOccurs cs).filter (fun x => !hasCode (map.map
            (fun m => if m.standard_code = c then updateAcc p m else m)) x) =
            (firstOccurs cs).filter (fun x => !hasCode map x) := by
          apply List.filter_congr
          intro x _
          rw [hasCode_update]
        rw [hfilter]
        apply List.map_congr_left
        intro x hx
        rcases List.mem_filter.mp hx with ⟨_, hx2⟩
        have hxc : x ≠ c := by
          intro hxceq
          rw [hxceq, h] at hx2
          simp at hx2
        rw [List.count_cons_of_ne hxc cs]
    · have hcf : hasCode map c = false := by simpa using h
      rw [processCode, if_neg h, ih]
      rw [List.map_append]
      rw [List.append_assoc]
      congr 1
      · apply List.map_congr_left
        intro m hm
        have hne : m.standard_code ≠ c := hasCode_false_ne map c hcf m hm
        rw [List.count_cons_of_ne hne cs]
      · simp only [List.map_cons, List.map_nil, List.singleton_append]
        unfold newEntries
        have hfo : (firstOccurs (c :: cs)).filter (fun x => !hasCode map x) =
            c :: (firstOccurs cs).filter (fun x => !hasCode map x && decide (x ≠ c)) := by
          show ((c :: (firstOccurs cs).filter (fun x => decide (x ≠ c))).filter
            (fun x => !hasCode map x)) = _
          rw [List.filter_cons, hcf]
          simp only [Bool.not_false, if_true]
          rw [List.filter_filter]
        rw [hfo, List.map_cons]
        congr 1
        · show bump (List.count c cs) p (updateAcc p (initAcc c p q)) = _
          rw [bump_updateAcc, List.count_cons_self]
        · have hfilter : (firstOccurs cs).filter
              (fun x => !hasCode (map ++ [updateAcc p (initAcc c p q)]) x) =
              (firstOccurs cs).filter (fun x => !hasCode map x && decide (x ≠ c)) := by
            apply List.filter_congr
            intro x _
            rw [hasCode_append_one]
            show (!(hasCode map x || decide (c = x))) = _
            by_cases hxc : x = c
            · simp [hxc]
            · have h1 : (c = x) = False := eq_false (fun hcx => hxc hcx.symm)
              have h2 : (x ≠ c) = True := eq_true hxc
              simp [Bool.not_or, h1, h2]
          rw [hfilter]
          apply List.map_congr_left
          intro x hx
          rcases List.mem_filter.mp hx with ⟨_, hx2⟩
          have hxc : x ≠ c := by
            simp only [Bool.and_eq_true, decide_eq_true_eq] at hx2
            exact hx2.2
          rw [List.count_cons_of_ne hxc cs]

/-! Step lemmas at the level of one attempt. -/

theorem attemptCodes_resolved (qmap : String → Option Question) (p : Practice) (q : Question)
    (codes : List String) (hq : resolveQuestion qmap p = some q)
    (hc : q.ny_standards_codes = some codes) :
    attemptCodes qmap p = codes := by
  simp only [attemptCodes, hq, hc]

theorem processPractice_skip (qmap : String → Option Question) (map : List MasteryAcc)
    (p : Practice) (h : attemptCodes qmap p = []) :
    processPractice qmap map p = map := by
  cases hr : resolveQuestion qmap p with
  | none => simp only [processPractice, hr]
  | some q =>
    cases hcq : q.ny_standards_codes with
    | none => simp only [processPractice, hr, hcq]
    | some codes =>
      have hcodes : codes = [] := by
        rw [attemptCodes_resolved qmap p q codes hr hcq] at h
        exact h
      subst hcodes
      simp only [processPractice, hr, hcq, List.foldl_nil]

theorem processPractice_resolved (qmap : String → Option Question) (map : List MasteryAcc)
    (p : Practice) (q : Question) (codes : List String)
    (hq : resolveQuestion qmap p = some q) (hc : q.ny_standards_codes = some codes) :
    processPractice qmap map p =
      map.map (fun m => bump (codes.count m.standard_code) p m) ++ newEntries p q map codes := by
  simp only [processPractice, hq, hc]
  exact foldCodes_eq p q codes map

/-! Lemmas about `listMax` and the spec-side aggregates. -/

theorem listMax_concat (l : List Int) (x : Int) :
    listMax (l ++ [x]) = some (match listMax l with
      | none => x
      | some m => max m x) := by
  cases l with
  | nil => simp [listMax]
  | cons y ys => simp [listMax, List.foldl_append]

theorem listMax_concat_some (l : List Int) (x cur : Int) (h : listMax l = some cur) :
    listMax (l ++ [x]) = some (max cur x) := by
  rw [listMax_concat, h]

theorem listMax_isSome (l : List Int) (h : l ≠ []) : ∃ v, listMax l = some v := by
  cases l with
  | nil => exact absurd rfl h
  | cons y ys => exact ⟨ys.foldl max y, rfl⟩

theorem observationCount_append_one (qmap : String → Option Question)
    (attempts : List Practice) (p : Practice) (code : String) :
    observationCount qmap (attempts ++ [p]) code =
      observationCount qmap attempts code + codeCount qmap p code := by
  simp [observationCount, List.sum_append]

theorem collectedLatencies_append_one (qmap : String → Option Question)
    (attempts : List Practice) (p : Practice) (code : String) :
    collectedLatencies qmap (attempts ++ [p]) code =
      collectedLatencies qmap attempts code ++ repRT (codeCount qmap p code) p := by
  simp [collectedLatencies]

theorem contributingInstants_append_one (qmap : String → Option Question)
    (attempts : List Practice) (p : Practice) (code : String) :
    contributingInstants qmap (attempts ++ [p]) code =
      contributingInstants qmap attempts code ++
        (if code ∈ attemptCodes qmap p then p.created_at.toList else []) := by
  unfold contributingInstants
  rw [List.filter_append, List.filterMap_append]
  congr 1
  by_cases hmem : code ∈ attemptCodes qmap p
  · simp [hmem]
    cases hca : p.created_at <;> simp [hca, Option.toList]
  · simp [hmem]

theorem observationCount_zero (qmap : String → Option Question) (attempts : List Practice)
    (code : String) (h : ∀ p ∈ attempts, code ∉ attemptCodes qmap p) :
    observationCount qmap attempts code = 0 := by
  apply List.sum_eq_zero
  intro x hx
  rcases List.mem_map.mp hx with ⟨p, hp, rfl⟩
  exact List.count_eq_zero.mpr (h p hp)

theorem collectedLatencies_nil (qmap : String → Option Question) (attempts : List Practice)
    (code : String) (h : ∀ p ∈ attempts, code ∉ attemptCodes qmap p) :
    collectedLatencies qmap attempts code = [] := by
  apply List.flatten_eq_nil_iff.mpr
  intro l hl
  rcases List.mem_map.mp hl with ⟨p, hp, rfl⟩
  have : codeCount qmap p code = 0 := List.count_eq_zero.mpr (h p hp)
  rw [this, repRT_zero]

theorem contributingInstants_nil (qmap : String → Option Question) (attempts : List Practice)
    (code : String) (h : ∀ p ∈ attempts, code ∉ attemptCodes qmap p) :
    contributingInstants qmap attempts code = [] := by
  unfold contributingInstants
  have : attempts.filter (fun p => decide (code ∈ attemptCodes qmap p)) = [] := by
    apply List.filter_eq_nil_iff.mpr
    intro p hp
    simp [h p hp]
  rw [this]
  rfl

/-! The master invariant of the fold: the statistics of each accumulator are
exactly the spec-side aggregates over the attempts processed so far. -/

/-- Per-accumulator invariant: counters are the multiplicity-weighted
observation counts, latencies are the collected truthy latencies, and,
when every contributing attempt carries a well-formed timestamp,
`last_attempted` is their maximum instant. -/
def AccSpec (qmap : String → Option Question) (processed : List Practice) (m : MasteryAcc) :
    Prop :=
  m.total_attempts = observationCount qmap processed m.standard_code ∧
  m.correct_count =
    (processed.map (fun p => if p.correct then codeCount qmap p m.standard_code else 0)).sum ∧
  m.incorrect_count =
    (processed.map (fun p => if p.correct then 0 else codeCount qmap p m.standard_code)).sum ∧
  m.response_times = collectedLatencies qmap processed m.standard_code ∧
  ((∀ p ∈ processed, codeCount qmap p m.standard_code ≠ 0 → p.created_at.isSome) →
    m.last_attempted = listMax (contributingInstants qmap processed m.standard_code))

/-- Whole-map invariant: keys are distinct, the key set is exactly the set
of codes observed so far, and every accumulator satisfies `AccSpec`. -/
def MapInv (qmap : String → Option Question) (processed : List Practice)
    (map : List MasteryAcc) : Prop :=
  (mapCodes map).Nodup ∧
  (∀ code, hasCode map code = true ↔ ∃ p ∈ processed, code ∈ attemptCodes qmap p) ∧
  (∀ m ∈ map, AccSpec qmap processed m)

theorem hasCode_eq_mem (map : List MasteryAcc) (x : String) :
    hasCode map x = true ↔ x ∈ mapCodes map := by
  simp [hasCode, mapCodes]

theorem hasCode_of_mem (map : List MasteryAcc) (m : MasteryAcc) (hm : m ∈ map) :
    hasCode map m.standard_code = true := by
  simp [hasCode]
  exact ⟨m, hm, rfl⟩

theorem hasCode_append (m₁ m₂ : List MasteryAcc) (x : String) :
    hasCode (m₁ ++ m₂) x = (hasCode m₁ x || hasCode m₂ x) := by
  simp [hasCode, List.any_append]

theorem hasCode_map_bump (map : List MasteryAcc) (g : MasteryAcc → Nat) (p : Practice) (x : String) :
    hasCode (map.map (fun m => bump (g m) p m)) x = hasCode map x := by
  simp only [hasCode, List.any_map]
  congr 1
  funext m
  simp [Function.comp, bump_code]

theorem mapCodes_map_bump (map : List MasteryAcc) (g : MasteryAcc → Nat) (p : Practice) :
    mapCodes (map.map (fun m => bump (g m) p m)) = mapCodes map := by
  simp only [mapCodes, List.map_map]
  apply List.map_congr_left
  intro m _
  simp [Function.comp, bump_code]

theorem mapCodes_newEntries (p : Practice) (q : Question) (map : List MasteryAcc)
    (cs : List String) :
    mapCodes (newEntries p q map cs) = (firstOccurs cs).filter (fun c => !hasCode map c) := by
  unfold newEntries mapCodes
  rw [List.map_map]
  have : ∀ c ∈ (firstOccurs cs).filter (fun c => !hasCode map c),
      ((fun m => m.standard_code) ∘ fun c => bump (cs.count c) p (initAcc c p q)) c = c := by
    intro c _
    simp [Function.comp, bump_code, initAcc_code]
  rw [List.map_congr_left this]
  simp

theorem AccSpec_extend_zero (qmap : String → Option Question) (processed : List Practice)
    (p : Practice) (m : MasteryAcc) (hk : codeCount qmap p m.standard_code = 0)
    (hs : AccSpec qmap processed m) : AccSpec qmap (processed ++ [p]) m := by
  obtain ⟨h1, h2, h3, h4, h5⟩ := hs
  refine ⟨?_, ?_, ?_, ?_, ?_⟩
  · rw [observationCount_append_one, hk, Nat.add_zero, h1]
  · simp [List.map_append, List.sum_append, hk, h2.symm]
  · simp [List.map_append, List.sum_append, hk, h3.symm]
  · rw [collectedLatencies_append_one, hk, repRT_zero, List.append_nil, h4]
  · intro hwf
    have hmem : m.standard_code ∉ attemptCodes qmap p := List.count_eq_zero.mp hk
    rw [contributingInstants_append_one, if_neg hmem, List.append_nil]
    apply h5
    intro p' hp' hcnt
    exact hwf p' (List.mem_append.mpr (Or.inl hp')) hcnt

theorem AccSpec_extend_bump (qmap : String → Option Question) (processed : List Practice)
    (p : Practice) (m : MasteryAcc)
    (hs : AccSpec qmap processed m)
    (hex : ∃ p' ∈ processed, m.standard_code ∈ attemptCodes qmap p') :
    AccSpec qmap (processed ++ [p]) (bump (codeCount qmap p m.standard_code) p m) := by
  by_cases hk : codeCount qmap p m.standard_code = 0
  · rw [hk, bump_zero]
    exact AccSpec_extend_zero qmap processed p m hk hs
  · obtain ⟨h1, h2, h3, h4, h5⟩ := hs
    have hcode : (bump (codeCount qmap p m.standard_code) p m).standard_code =
        m.standard_code := bump_code _ p m
    refine ⟨?_, ?_, ?_, ?_, ?_⟩
    · rw [hcode, bump_total, observationCount_append_one, h1]
    · rw [hcode, bump_correct, List.map_append, List.sum_append, h2]
      simp
    · rw [hcode, bump_incorrect, List.map_append, List.sum_append, h3]
      simp
    · rw [hcode, bump_rts, collectedLatencies_append_one, h4]
    · intro hwf
      rw [hcode] at hwf ⊢
      have hmem : m.standard_code ∈ attemptCodes qmap p := by
        by_contra hno
        exact hk (List.count_eq_zero.mpr hno)
      have hx : p.created_at.isSome :=
        hwf p (List.mem_append.mpr (Or.inr (List.mem_singleton.mpr rfl))) hk
      obtain ⟨x, hxeq⟩ := Option.isSome_iff_exists.mp hx
      have hml : m.last_attempted =
          listMax (contributingInstants qmap processed m.standard_code) := by
        apply h5
        intro p' hp' hcnt
        exact hwf p' (List.mem_append.mpr (Or.inl hp')) hcnt
      obtain ⟨p', hp', hp'mem⟩ := hex
      have hp'cnt : codeCount qmap p' m.standard_code ≠ 0 := by
        intro h0
        exact (List.count_eq_zero.mp h0) hp'mem
      obtain ⟨y, hy⟩ := Option.isSome_iff_exists.mp
        (hwf p' (List.mem_append.mpr (Or.inl hp')) hp'cnt)
      have hnonnil : contributingInstants qmap processed m.standard_code ≠ [] := by
        intro hnil
        have hyin : y ∈ contributingInstants qmap processed m.standard_code := by
          apply List.mem_filterMap.mpr
          refine ⟨p', ?_, hy⟩
          apply List.mem_filter.mpr
          exact ⟨hp', by simp [hp'mem]⟩
        rw [hnil] at hyin
        exact absurd hyin (List.not_mem_nil y)
      obtain ⟨cur, hcur⟩ := listMax_isSome _ hnonnil
      rw [contributingInstants_append_one, if_pos hmem, hxeq]
      rw [show (some x).toList = [x] from rfl]
      rw [listMax_concat_some _ x cur hcur]
      rw [bump_last_pos _ hk, hml, hcur, hxeq]
      by_cases hlt : cur < x
      · have hgt : jsDateGt (some x) (some cur) = true := by simp [jsDateGt, hlt]
        rw [hgt, if_pos rfl, max_eq_right hlt.le]
      · have hgt : jsDateGt (some x) (some cur) = false := by simp [jsDateGt, hlt]
        rw [hgt, if_neg (by simp), max_eq_left (not_lt.mp hlt)]

theorem AccSpec_new_entry (qmap : String → Option Question) (processed : List Practice)
    (p : Practice) (q : Question) (c : String)
    (hknz : codeCount qmap p c ≠ 0)
    (hzero : ∀ p' ∈ processed, c ∉ attemptCodes qmap p') :
    AccSpec qmap (processed ++ [p]) (bump (codeCount qmap p c) p (initAcc c p q)) := by
  have hcode : (bump (codeCount qmap p c) p (initAcc c p q)).standard_code = c := by
    rw [bump_code, initAcc_code]
  have hmem : c ∈ attemptCodes qmap p := by
    by_contra hno
    exact hknz (List.count_eq_zero.mpr hno)
  refine ⟨?_, ?_, ?_, ?_, ?_⟩
  · rw [hcode, bump_total, observationCount_append_one,
      observationCount_zero qmap processed c hzero]
    show (initAcc c p q).total_attempts + _ = _
    rw [show (initAcc c p q).total_attempts = 0 from rfl]
  · rw [hcode, bump_correct, List.map_append, List.sum_append]
    have hz : (processed.map (fun p' => if p'.correct then codeCount qmap p' c else 0)).sum
        = 0 := by
      apply List.sum_eq_zero
      intro v hv
      rcases List.mem_map.mp hv with ⟨p', hp', rfl⟩
      have : codeCount qmap p' c = 0 := List.count_eq_zero.mpr (hzero p' hp')
      simp [this]
    rw [hz]
    show (initAcc c p q).correct_count + _ = _
    rw [show (initAcc c p q).correct_count = 0 from rfl]
    simp
  · rw [hcode, bump_incorrect, List.map_append, List.sum_append]
    have hz : (processed.map (fun p' => if p'.correct then 0 else codeCount qmap p' c)).sum
        = 0 := by
      apply List.sum_eq_zero
      intro v hv
      rcases List.mem_map.mp hv with ⟨p', hp', rfl⟩
      have : codeCount qmap p' c = 0 := List.count_eq_zero.mpr (hzero p' hp')
      simp [this]
    rw [hz]
    show (initAcc c p q).incorrect_count + _ = _
    rw [show (initAcc c p q).incorrect_count = 0 from rfl]
    simp
  · rw [hcode, bump_rts, collectedLatencies_append_one,
      collectedLatencies_nil qmap processed c hzero]
    show (initAcc c p q).response_times ++ _ = _
    rw [show (initAcc c p q).response_times = [] from rfl]
  · intro hwf
    rw [hcode] at hwf ⊢
    have hx : p.created_at.isSome :=
      hwf p (List.mem_append.mpr (Or.inr (List.mem_singleton.mpr rfl))) hknz
    obtain ⟨x, hxeq⟩ := Option.isSome_iff_exists.mp hx
    rw [contributingInstants_append_one, if_pos hmem,
      contributingInstants_nil qmap processed c hzero, hxeq]
    rw [show (some x).toList = [x] from rfl, List.nil_append]
    rw [bump_last_pos _ hknz]
    rw [show (initAcc c p q).last_attempted = p.created_at from rfl]
    rw [jsDateGt_irrefl, if_neg (by simp), hxeq]
    rfl

theorem MapInv_step (qmap : String → Option Question) (processed : List Practice)
    (map : List MasteryAcc) (p : Practice) (hinv : MapInv qmap processed map) :
    MapInv qmap (processed ++ [p]) (processPractice qmap map p) := by
  obtain ⟨hnd, hdom, hacc⟩ := hinv
  by_cases hskip : attemptCodes qmap p = []
  · rw [processPractice_skip qmap map p hskip]
    refine ⟨hnd, ?_, ?_⟩
    · intro code
      rw [hdom code]
      constructor
      · rintro ⟨p', hp', hmem⟩
        exact ⟨p', List.mem_append.mpr (Or.inl hp'), hmem⟩
      · rintro ⟨p', hp', hmem⟩
        rcases List.mem_append.mp hp' with h | h
        · exact ⟨p', h, hmem⟩
        · rw [List.mem_singleton] at h
          subst h
          rw [hskip] at hmem
          exact absurd hmem (List.not_mem_nil code)
    · intro m hm
      apply AccSpec_extend_zero
      · unfold codeCount
        rw [hskip]
        rfl
      · exact hacc m hm
  · cases hr : resolveQuestion qmap p with
    | none =>
      exact absurd (by simp [attemptCodes, hr]) hskip
    | some q =>
      cases hcq : q.ny_standards_codes with
      | none =>
        exact absurd (by simp [attemptCodes, hr, hcq]) hskip
      | some codes =>
        have hcodes : attemptCodes qmap p = codes := attemptCodes_resolved qmap p q codes hr hcq
        rw [processPractice_resolved qmap map p q codes hr hcq]
        refine ⟨?_, ?_, ?_⟩
        · rw [show mapCodes (map.map (fun m => bump (codes.count m.standard_code) p m) ++
              newEntries p q map codes) =
              mapCodes (map.map (fun m => bump (codes.count m.standard_code) p m)) ++
              mapCodes (newEntries p q map codes) by simp [mapCodes]]
          rw [mapCodes_map_bump, mapCodes_newEntries]
          apply List.Nodup.append hnd ((nodup_firstOccurs codes).filter _)
          intro x hx hx2
          rcases List.mem_filter.mp hx2 with ⟨_, hx3⟩
          have : hasCode map x = true := (hasCode_eq_mem map x).mpr hx
          rw [this] at hx3
          simp at hx3
        · intro code
          rw [hasCode_append, Bool.or_eq_true, hasCode_map_bump, hdom code]
          have hB : hasCode (newEntries p q map codes) code = true ↔
              (code ∈ codes ∧ hasCode map code = false) := by
            rw [hasCode_eq_mem, mapCodes_newEntries]
            rw [List.mem_filter]
            constructor
            · rintro ⟨h1, h2⟩
              refine ⟨(mem_firstOccurs code codes).mp h1, ?_⟩
              simpa using h2
            · rintro ⟨h1, h2⟩
              refine ⟨(mem_firstOccurs code codes).mpr h1, ?_⟩
              simp [h2]
          rw [hB]
          constructor
          · rintro (⟨p', hp', hm⟩ | ⟨hmem, _⟩)
            · exact ⟨p', List.mem_append.mpr (Or.inl hp'), hm⟩
            · refine ⟨p, List.mem_append.mpr (Or.inr (List.mem_singleton.mpr rfl)), ?_⟩
              rw [hcodes]
              exact hmem
          · rintro ⟨p', hp', hm⟩
            rcases List.mem_append.mp hp' with h | h
            · exact Or.inl ⟨p', h, hm⟩
            · rw [List.mem_singleton] at h
              subst h
              rw [hcodes] at hm
              by_cases hhc : hasCode map code = true
              · exact Or.inl ((hdom code).mp hhc)
              · exact Or.inr ⟨hm, by simpa using hhc⟩
        · intro m' hm'
          rcases List.mem_append.mp hm' with hA | hB
          · rcases List.mem_map.mp hA with ⟨m, hm, rfl⟩
            have hk : codes.count m.standard_code = codeCount qmap p m.standard_code := by
              unfold codeCount
              rw [hcodes]
            rw [hk]
            apply AccSpec_extend_bump qmap processed p m (hacc m hm)
            exact (hdom m.standard_code).mp (hasCode_of_mem map m hm)
          · rcases List.mem_map.mp hB with ⟨c, hc, rfl⟩
            rcases List.mem_filter.mp hc with ⟨hcfo, hcnothas⟩
            have hcmem : c ∈ codes := (mem_firstOccurs c codes).mp hcfo
            have hknz : codeCount qmap p c ≠ 0 := by
              unfold codeCount
              rw [hcodes]
              exact fun h0 => (List.count_eq_zero.mp h0) hcmem
            have hk : codes.count c = codeCount qmap p c := by
              unfold codeCount
              rw [hcodes]
            rw [hk]
            apply AccSpec_new_entry qmap processed p q c hknz
            intro p' hp' hmem'
            have habs : hasCode map c = true := (hdom c).mpr ⟨p', hp', hmem'⟩
            rw [habs] at hcnothas
            simp at hcnothas

theorem MapInv_nil (qmap : String → Option Question) : MapInv qmap [] [] := by
  refine ⟨by simp [mapCodes], ?_, by simp⟩
  intro code
  simp [hasCode]

theorem MapInv_fold (qmap : String → Option Question) (attempts : List Practice) :
    MapInv qmap attempts (masteryFold qmap attempts) := by
  have aux : ∀ (rest processed : List Practice) (map : List MasteryAcc),
      MapInv qmap processed map →
      MapInv qmap (processed ++ rest) (rest.foldl (processPractice qmap) map) := by
    intro rest
    induction rest with
    | nil =>
      intro processed map h
      simpa using h
    | cons p rest ih =>
      intro processed map h
      rw [List.foldl_cons]
      have hstep := MapInv_step qmap processed map p h
      have := ih (processed ++ [p]) (processPractice qmap map p) hstep
      rw [List.append_assoc] at this
      simpa using this
  have := aux attempts [] [] (MapInv_nil qmap)
  simpa [masteryFold] using this

/-! Relation enrichment (src/routes/math.routes.ts lines 11-35 for the
batched variant, lines 86-98 for the single-record variant). -/

/-- A standards row as selected by the standards routes. -/
structure StandardRow where
  id : String
  standard_code : String
  description : Option String
  module_id : Option String
  topic_id : Option String
  created_at : Option String
deriving DecidableEq

/-- A modules row as selected by the enrichment queries. -/
structure ModuleRow where
  id : String
  name : String
  description : Option String
  display_order : Option Int
deriving DecidableEq

/-- A topics row as selected by the enrichment queries. -/
structure TopicRow where
  id : String
  name : String
deriving DecidableEq

/-- The denormalized record returned by the standards routes: `module` and
`topic` are `none` exactly where the source emits null. -/
structure EnrichedStandard where
  id : String
  standard_code : String
  description : Option String
  created_at : Option String
  module : Option ModuleRow
  topic : Option TopicRow
deriving DecidableEq

/-- The batched module query (filter by id membership): the rows whose id
occurs among the module ids of the standards. The `new Set` dedup in the
source only shrinks the query payload; the resulting row set is
unchanged. -/
def fetchedModules (standards : List StandardRow) (modulesDb : List ModuleRow) :
    List ModuleRow :=
  modulesDb.filter (fun m => (standards.map (fun s => s.module_id)).contains (some m.id))

/-- The batched topic query (filter by id membership). -/
def fetchedTopics (standards : List StandardRow) (topicsDb : List TopicRow) : List TopicRow :=
  topicsDb.filter (fun t => (standards.map (fun s => s.topic_id)).contains (some t.id))

/-- `new Map(rows.map(r => [r.id, r])).get(k)`: with duplicate keys the
later entry overwrites the earlier one, so lookup returns the last match;
a missing key yields undefined, modelled as `none`. -/
def lastWithKey {α : Type} (key : α → String) (rows : List α) (k : String) : Option α :=
  (rows.filter (fun r => key r = k)).getLast?

/-- One output record of the batched enrichment
(src/routes/math.routes.ts lines 27-34): `modulesMap.get(standard.module_id) || null`.
A null `module_id` misses the map (its keys are row ids). -/
def enrichRow (fetchedM : List ModuleRow) (fetchedT : List TopicRow) (s : StandardRow) :
    EnrichedStandard :=
  { id := s.id
    standard_code := s.standard_code
    description := s.description
    created_at := s.created_at
    module :=
      match s.module_id with
      | some mid => lastWithKey (fun m => m.id) fetchedM mid
      | none => none
    topic :=
      match s.topic_id with
      | some tid => lastWithKey (fun t => t.id) fetchedT tid
      | none => none }

/-- `enrichStandardsWithRelations` (src/routes/math.routes.ts lines
11-35): two batched fetches, then a pure map over the standards. -/
def enrichStandardsWithRelations (standards : List StandardRow) (modulesDb : List ModuleRow)
    (topicsDb : List TopicRow) : List EnrichedStandard :=
  standards.map (enrichRow (fetchedModules standards modulesDb) (fetchedTopics standards topicsDb))

/-- A single-row query (eq on id then single): data only when exactly one
row matches, otherwise the response carries null data, which the
null-coalescing in the source turns into null. -/
def singleRow {α : Type} (rows : List α) : Option α :=
  match rows with
  | [x] => some x
  | _ => none

/-- The single-record variant (src/routes/math.routes.ts lines 86-98):
two individual `.eq(...).single()` fetches with the same null-on-miss
semantics. A null `module_id` matches no row. -/
def enrichSingleStandard (s : StandardRow) (modulesDb : List ModuleRow)
    (topicsDb : List TopicRow) : EnrichedStandard :=
  { id := s.id
    standard_code := s.standard_code
    description := s.description
    created_at := s.created_at
    module :=
      match s.module_id with
      | some mid => singleRow (modulesDb.filter (fun m => m.id = mid))
      | none => none
    topic :=
      match s.topic_id with
      | some tid => singleRow (topicsDb.filter (fun t => t.id = tid))
      | none => none }

/-! Environment-driven configuration (src/index.ts lines 10-20,
src/routes/auth.routes.ts for the token expiry). -/

/-- The environment variables the server reads. `none` models an unset
variable, `some ""` an empty one (falsy in JavaScript). -/
structure Env where
  port : Option String
  apiMount : Option String
  corsAllowedOrigin : Option String
  jwtExpiresIn : Option String
deriving DecidableEq

/-- `process.env.X || d`: the default is used when the variable is unset
or empty. -/
def envOr (v : Option String) (d : String) : String :=
  match v with
  | some s => if s = "" then d else s
  | none => d

/-- `const PORT = process.env.PORT || 3000` (src/index.ts line 11); the
numeric default is rendered as its decimal string. -/
def serverPort (env : Env) : String :=
  envOr env.port "3000"

/-- The path mount read from the environment with the default /api/v1
(src/index.ts line 12). -/
def apiBasePath (env : Env) : String :=
  envOr env.apiMount "/api/v1"

/-- The CORS origin the server allows (src/index.ts lines 15-20): the
literal string passed to the cors middleware. No environment variable is
read here. -/
def corsOriginConfig (_env : Env) : String :=
  "http://localhost:8080"

/-- The token expiry read from the environment with the default 24h
(src/routes/auth.routes.ts). -/
def tokenExpiresIn (env : Env) : String :=
  envOr env.jwtExpiresIn "24h"

/-! Concrete inputs used by the scenario claim, the counterexamples and
the witnesses, together with their evaluations. -/

/-- The question of the two-attempt scenario, mapped to two codes. -/
def scenQuestion : Question :=
  { id := "q1", ny_standards_codes := some ["A.1", "A.2"], module_id := none, topic_id := none }

/-- Catalog holding exactly the scenario question. -/
def scenCatalog : String → Option Question :=
  fun qid => if qid = "q1" then some scenQuestion else none

/-- Scenario attempt 1: correct, 500 ms. -/
def scenAttempt1 : Practice :=
  { correct := true, response_time_ms := some 500, created_at := some 1000,
    module_id := none, topic_id := none, question_id := some "q1",
    question_type := "saved", reference_question_id := none }

/-- Scenario attempt 2: incorrect, 700 ms, later. -/
def scenAttempt2 : Practice :=
  { correct := false, response_time_ms := some 700, created_at := some 2000,
    module_id := none, topic_id := none, question_id := some "q1",
    question_type := "saved", reference_question_id := none }

/-- The record both scenario codes receive. -/
def scenRecord (code : String) : MasteryRecord :=
  { standard_code := code, module_id := none, topic_id := none,
    total_attempts := 2, correct_count := 1, incorrect_count := 1,
    mastery_percentage := 50, avg_response_time_ms := some 600,
    last_attempted := some 2000 }

theorem scenario_eval :
    computeMastery [scenAttempt1, scenAttempt2] scenCatalog =
      [scenRecord "A.1", scenRecord "A.2"] := by
  simp [computeMastery, masteryFold, processPractice, processCode, hasCode,
    resolveQuestion, resolvedQuestionId, initAcc, updateAcc, finalizeAcc,
    jsDateGt, jsOrId, scenCatalog, scenAttempt1, scenAttempt2, scenQuestion, scenRecord]
  norm_num [jsRound]

/-- A question whose stored code list repeats the same code. -/
def dupQuestion : Question :=
  { id := "q2", ny_standards_codes := some ["A.1", "A.1"], module_id := none, topic_id := none }

/-- Catalog holding exactly the duplicate-code question. -/
def dupCatalog : String → Option Question :=
  fun qid => if qid = "q2" then some dupQuestion else none

/-- One correct attempt at the duplicate-code question. -/
def dupAttempt : Practice :=
  { correct := true, response_time_ms := none, created_at := some 0,
    module_id := none, topic_id := none, question_id := some "q2",
    question_type := "saved", reference_question_id := none }

/-- The record the duplicate-code attempt produces: counted twice. -/
def dupRecord : MasteryRecord :=
  { standard_code := "A.1", module_id := none, topic_id := none,
    total_attempts := 2, correct_count := 2, incorrect_count := 0,
    mastery_percentage := 100, avg_response_time_ms := none,
    last_attempted := some 0 }

theorem dup_eval : computeMastery [dupAttempt] dupCatalog = [dupRecord] := by
  simp [computeMastery, masteryFold, processPractice, processCode, hasCode,
    resolveQuestion, resolvedQuestionId, initAcc, updateAcc, finalizeAcc,
    jsDateGt, jsOrId, dupCatalog, dupAttempt, dupQuestion, dupRecord]
  norm_num [jsRound]

/-- A single-code question used by several small scenarios. -/
def oneQuestion : Question :=
  { id := "q3", ny_standards_codes := some ["B.1"], module_id := none, topic_id := none }

/-- Catalog holding exactly the single-code question. -/
def oneCatalog : String → Option Question :=
  fun qid => if qid = "q3" then some oneQuestion else none

/-- An attempt whose latency is present but zero (falsy in the source). -/
def zeroLatAttempt : Practice :=
  { correct := true, response_time_ms := some 0, created_at := some 5,
    module_id := none, topic_id := none, question_id := some "q3",
    question_type := "saved", reference_question_id := none }

/-- The record it produces: the zero latency was dropped. -/
def zeroLatRecord : MasteryRecord :=
  { standard_code := "B.1", module_id := none, topic_id := none,
    total_attempts := 1, correct_count := 1, incorrect_count := 0,
    mastery_percentage := 100, avg_response_time_ms := none,
    last_attempted := some 5 }

theorem zeroLat_eval : computeMastery [zeroLatAttempt] oneCatalog = [zeroLatRecord] := by
  simp [computeMastery, masteryFold, processPractice, processCode, hasCode,
    resolveQuestion, resolvedQuestionId, initAcc, updateAcc, finalizeAcc,
    jsDateGt, jsOrId, oneCatalog, zeroLatAttempt, oneQuestion, zeroLatRecord]
  norm_num [jsRound]

/-- An attempt whose question type is neither "saved" nor "on_the_fly",
carrying a reference question id that is in the catalog. -/
def weirdAttempt : Practice :=
  { correct := true, response_time_ms := none, created_at := some 7,
    module_id := none, topic_id := none, question_id := none,
    question_type := "bonus_round", reference_question_id := some "q3" }

/-- The record the unknown-typed attempt produces. -/
def weirdRecord : MasteryRecord :=
  { standard_code := "B.1", module_id := none, topic_id := none,
    total_attempts := 1, correct_count := 1, incorrect_count := 0,
    mastery_percentage := 100, avg_response_time_ms := none,
    last_attempted := some 7 }

theorem weird_eval : computeMastery [weirdAttempt] oneCatalog = [weirdRecord] := by
  simp [computeMastery, masteryFold, processPractice, processCode, hasCode,
    resolveQuestion, resolvedQuestionId, initAcc, updateAcc, finalizeAcc,
    jsDateGt, jsOrId, oneCatalog, weirdAttempt, oneQuestion, weirdRecord]
  norm_num [jsRound]

/-- An attempt whose stored timestamp is malformed. -/
def malformedAttempt : Practice :=
  { correct := true, response_time_ms := none, created_at := none,
    module_id := none, topic_id := none, question_id := some "q3",
    question_type := "saved", reference_question_id := none }

/-- The record it produces: no error, the invalid instant is kept as is. -/
def malformedRecord : MasteryRecord :=
  { standard_code := "B.1", module_id := none, topic_id := none,
    total_attempts := 1, correct_count := 1, incorrect_count := 0,
    mastery_percentage := 100, avg_response_time_ms := none,
    last_attempted := none }

theorem malformed_eval : computeMastery [malformedAttempt] oneCatalog = [malformedRecord] := by
  simp [computeMastery, masteryFold, processPractice, processCode, hasCode,
    resolveQuestion, resolvedQuestionId, initAcc, updateAcc, finalizeAcc,
    jsDateGt, jsOrId, oneCatalog, malformedAttempt, oneQuestion, malformedRecord]
  norm_num [jsRound]

/-! Bridging lemmas from the fold invariant to the finalized records. -/

theorem sum_map_add {α : Type} (l : List α) (f g : α → Nat) :
    (l.map (fun x => f x + g x)).sum = (l.map f).sum + (l.map g).sum := by
  induction l with
  | nil => simp
  | cons x xs ih =>
    simp only [List.map_cons, List.sum_cons, ih]
    omega

theorem computeMastery_mem (attempts : List Practice) (qmap : String → Option Question)
    (r : MasteryRecord) (hr : r ∈ computeMastery attempts qmap) :
    ∃ m ∈ masteryFold qmap attempts, r = finalizeAcc m := by
  simp only [computeMastery] at hr
  rcases List.mem_map.mp hr with ⟨m, hm, rfl⟩
  exact ⟨m, hm, rfl⟩

theorem jsRound_pct_bounds (c t : Nat) (hct : c ≤ t) (ht : 1 ≤ t) :
    0 ≤ (jsRound ((c : ℚ) / (t : ℚ) * 100 * 10) : ℚ) / 10 ∧
      (jsRound ((c : ℚ) / (t : ℚ) * 100 * 10) : ℚ) / 10 ≤ 100 := by
  have ht1 : (1 : ℚ) ≤ (t : ℚ) := by exact_mod_cast ht
  have ht0 : (0 : ℚ) < (t : ℚ) := by linarith
  have hq0 : 0 ≤ (c : ℚ) / (t : ℚ) * 100 * 10 := by positivity
  have hq1 : (c : ℚ) / (t : ℚ) ≤ 1 := by
    rw [div_le_one ht0]
    exact_mod_cast hct
  have hq1000 : (c : ℚ) / (t : ℚ) * 100 * 10 ≤ 1000 := by nlinarith
  constructor
  · apply div_nonneg _ (by norm_num)
    have h0 : (0 : Int) ≤ jsRound ((c : ℚ) / (t : ℚ) * 100 * 10) := by
      unfold jsRound
      apply Int.floor_nonneg.mpr
      linarith
    exact_mod_cast h0
  · have hle : jsRound ((c : ℚ) / (t : ℚ) * 100 * 10) ≤ 1000 := by
      unfold jsRound
      have hlt : (c : ℚ) / (t : ℚ) * 100 * 10 + 1 / 2 < ((1001 : Int) : ℚ) := by
        push_cast
        linarith
      have := Int.floor_lt.mpr hlt
      omega
    have hcast : ((jsRound ((c : ℚ) / (t : ℚ) * 100 * 10)) : ℚ) ≤ 1000 := by
      exact_mod_cast hle
    linarith

/-! The claims. -/

/-- C1: on the two-attempt scenario (same question mapped to the codes
"A.1" and "A.2", attempt one correct with 500 ms, attempt two incorrect
with 700 ms), both codes receive a record with two total attempts, one
correct, one incorrect, 50.0 percent mastery and a 600 ms average
latency. -/
theorem scenario_two_attempts_two_codes :
    computeMastery [scenAttempt1, scenAttempt2] scenCatalog =
      [scenRecord "A.1", scenRecord "A.2"] ∧
    (scenRecord "A.1").total_attempts = 2 ∧ (scenRecord "A.1").correct_count = 1 ∧
    (scenRecord "A.1").incorrect_count = 1 ∧ (scenRecord "A.1").mastery_percentage = 50 ∧
    (scenRecord "A.1").avg_response_time_ms = some 600 :=
  ⟨scenario_eval, rfl, rfl, rfl, rfl, rfl⟩

/-- C2: every output record satisfies total = correct + incorrect, has at
least one attempt (a zero-attempt record never appears), its percentage
equals round(correct/total*1000)/10, and the percentage lies within
0..100. -/
theorem mastery_record_invariants (attempts : List Practice)
    (qmap : String → Option Question) (r : MasteryRecord)
    (hr : r ∈ computeMastery attempts qmap) :
    r.total_attempts = r.correct_count + r.incorrect_count ∧
    1 ≤ r.total_attempts ∧
    r.mastery_percentage =
      (jsRound ((r.correct_count : ℚ) / (r.total_attempts : ℚ) * 1000) : ℚ) / 10 ∧
    0 ≤ r.mastery_percentage ∧ r.mastery_percentage ≤ 100 := by
  obtain ⟨m, hm, rfl⟩ := computeMastery_mem attempts qmap r hr
  obtain ⟨hnd, hdom, hacc⟩ := MapInv_fold qmap attempts
  obtain ⟨h1, h2, h3, h4, h5⟩ := hacc m hm
  have hsplit : m.total_attempts = m.correct_count + m.incorrect_count := by
    rw [h1, h2, h3, observationCount, ← sum_map_add]
    congr 1
    apply List.map_congr_left
    intro p _
    cases hcp : p.correct <;> simp [hcp]
  have hpos : 1 ≤ m.total_attempts := by
    obtain ⟨p', hp', hmem⟩ := (hdom m.standard_code).mp (hasCode_of_mem _ m hm)
    have hcnt : 1 ≤ codeCount qmap p' m.standard_code := by
      have hne : codeCount qmap p' m.standard_code ≠ 0 :=
        fun h0 => (List.count_eq_zero.mp h0) hmem
      omega
    have hle : codeCount qmap p' m.standard_code ≤
        observationCount qmap attempts m.standard_code := by
      apply List.single_le_sum (by intro x _; omega)
      exact List.mem_map.mpr ⟨p', hp', rfl⟩
    rw [h1]
    omega
  have htot : (finalizeAcc m).total_attempts = m.total_attempts := rfl
  have hcor : (finalizeAcc m).correct_count = m.correct_count := rfl
  have hinc : (finalizeAcc m).incorrect_count = m.incorrect_count := rfl
  have hpct : (finalizeAcc m).mastery_percentage =
      (jsRound ((m.correct_count : ℚ) / (m.total_attempts : ℚ) * 100 * 10) : ℚ) / 10 := by
    show (if 0 < m.total_attempts then
      (jsRound ((m.correct_count : ℚ) / (m.total_attempts : ℚ) * 100 * 10) : ℚ) / 10
      else 0) = _
    rw [if_pos (by omega)]
  have hform : ((m.correct_count : ℚ) / (m.total_attempts : ℚ) * 100 * 10) =
      ((m.correct_count : ℚ) / (m.total_attempts : ℚ) * 1000) := by ring
  obtain ⟨hb0, hb1⟩ := jsRound_pct_bounds m.correct_count m.total_attempts (by omega) hpos
  refine ⟨?_, ?_, ?_, ?_, ?_⟩
  · rw [htot, hcor, hinc, hsplit]
  · rw [htot]
    exact hpos
  · rw [hpct, htot, hcor, hform]
  · rw [hpct]
    exact hb0
  · rw [hpct]
    exact hb1

/-- C3 (counterexample): a single attempt at a question whose stored code
list holds the code "A.1" twice yields total_attempts = 2 for that code —
the code list is iterated per occurrence, not deduplicated, so the claim
that such an attempt is counted only once is false. -/
theorem duplicate_codes_double_count :
    attemptCodes dupCatalog dupAttempt = ["A.1", "A.1"] ∧
    computeMastery [dupAttempt] dupCatalog = [dupRecord] ∧
    dupRecord.total_attempts = 2 ∧ dupRecord.correct_count = 2 :=
  ⟨rfl, dup_eval, rfl, rfl⟩

/-- C3 (amended): for every output record, total_attempts equals the number
of occurrences of its code summed over the code lists of all attempts —
one count per occurrence, duplicates included. -/
theorem total_counts_every_occurrence (attempts : List Practice)
    (qmap : String → Option Question) (r : MasteryRecord)
    (hr : r ∈ computeMastery attempts qmap) :
    r.total_attempts = observationCount qmap attempts r.standard_code := by
  obtain ⟨m, hm, rfl⟩ := computeMastery_mem attempts qmap r hr
  obtain ⟨_, _, hacc⟩ := MapInv_fold qmap attempts
  exact (hacc m hm).1

/-- C4: when every contributing attempt has a well-formed timestamp, each
last_attempted of each record is the maximum parsed instant over exactly the
attempts contributing to its code. -/
theorem last_attempted_is_max (attempts : List Practice) (qmap : String → Option Question)
    (hwf : ∀ p ∈ attempts, attemptCodes qmap p ≠ [] → p.created_at.isSome = true)
    (r : MasteryRecord) (hr : r ∈ computeMastery attempts qmap) :
    r.last_attempted = listMax (contributingInstants qmap attempts r.standard_code) := by
  obtain ⟨m, hm, rfl⟩ := computeMastery_mem attempts qmap r hr
  obtain ⟨_, _, hacc⟩ := MapInv_fold qmap attempts
  obtain ⟨_, _, _, _, h5⟩ := hacc m hm
  show m.last_attempted = _
  apply h5
  intro p hp hcnt
  apply hwf p hp
  intro hnil
  apply hcnt
  unfold codeCount
  rw [hnil]
  rfl

/-- C5 (counterexample): an attempt with response_time_ms present and
equal to 0 contributes no latency — the average of the record is null, whereas
the claim demands the mean of the collected latencies including 0. -/
theorem zero_latency_dropped :
    zeroLatAttempt.response_time_ms = some 0 ∧
    computeMastery [zeroLatAttempt] oneCatalog = [zeroLatRecord] ∧
    zeroLatRecord.avg_response_time_ms = none :=
  ⟨rfl, zeroLat_eval, rfl⟩

/-- C5 (amended): a latency is collected once per observation exactly when
it is present and nonzero (truthy); the average of the record is null when no
such latency was collected, otherwise it is the rounded mean of the
collected latencies. -/
theorem avg_of_truthy_latencies (attempts : List Practice)
    (qmap : String → Option Question) (r : MasteryRecord)
    (hr : r ∈ computeMastery attempts qmap) :
    (collectedLatencies qmap attempts r.standard_code = [] →
      r.avg_response_time_ms = none) ∧
    (collectedLatencies qmap attempts r.standard_code ≠ [] →
      r.avg_response_time_ms = some (jsRound
        (((collectedLatencies qmap attempts r.standard_code).sum : ℚ) /
          ((collectedLatencies qmap attempts r.standard_code).length : ℚ)))) := by
  obtain ⟨m, hm, rfl⟩ := computeMastery_mem attempts qmap r hr
  obtain ⟨_, _, hacc⟩ := MapInv_fold qmap attempts
  obtain ⟨_, _, _, h4, _⟩ := hacc m hm
  have havg : (finalizeAcc m).avg_response_time_ms =
      if 0 < m.response_times.length then
        some (jsRound ((m.response_times.sum : ℚ) / (m.response_times.length : ℚ)))
      else none := rfl
  have hcode : (finalizeAcc m).standard_code = m.standard_code := rfl
  rw [hcode]
  constructor
  · intro hnil
    rw [havg, h4, hnil]
    simp
  · intro hne
    rw [havg, h4]
    rw [if_pos (List.length_pos.mpr hne)]

/-- C10: output codes are pairwise distinct — exactly one record per
standard code observed across the contributing attempts. -/
theorem one_record_per_code (attempts : List Practice) (qmap : String → Option Question) :
    ((computeMastery attempts qmap).map (fun r => r.standard_code)).Nodup ∧
    (∀ code, (∃ r ∈ computeMastery attempts qmap, r.standard_code = code) ↔
      ∃ p ∈ attempts, code ∈ attemptCodes qmap p) := by
  obtain ⟨hnd, hdom, _⟩ := MapInv_fold qmap attempts
  constructor
  · simp only [computeMastery, List.map_map]
    have hfc : ((fun r => r.standard_code) ∘ finalizeAcc) =
        fun m => m.standard_code := rfl
    rw [hfc]
    exact hnd
  · intro code
    have h1 : (∃ r ∈ computeMastery attempts qmap, r.standard_code = code) ↔
        ∃ m ∈ masteryFold qmap attempts, m.standard_code = code := by
      constructor
      · rintro ⟨r, hr, hrc⟩
        obtain ⟨m, hm, rfl⟩ := computeMastery_mem attempts qmap r hr
        exact ⟨m, hm, hrc⟩
      · rintro ⟨m, hm, hmc⟩
        refine ⟨finalizeAcc m, ?_, hmc⟩
        simp only [computeMastery]
        exact List.mem_map.mpr ⟨m, hm, rfl⟩
    rw [h1, ← hasCode_iff]
    exact hdom code

/-- C6 (counterexample): an attempt whose question_type is neither
"saved" nor "on_the_fly" still contributes: the ternary in the source routes
every non-"saved" type through reference_question_id, so a catalog hit
produces an output record, contradicting the claim that such an attempt
contributes to no record. -/
theorem unknown_question_type_contributes :
    weirdAttempt.question_type ≠ "saved" ∧
    weirdAttempt.question_type ≠ "on_the_fly" ∧
    computeMastery [weirdAttempt] oneCatalog = [weirdRecord] ∧
    computeMastery [weirdAttempt] oneCatalog ≠ [] := by
  refine ⟨by decide, by decide, weird_eval, ?_⟩
  rw [weird_eval]
  simp

/-- C6 (amended): the effective question id is question_id exactly when
question_type is "saved" and reference_question_id for every other value
(including unknown types); an attempt whose question is absent from the
catalog or whose code list is empty contributes to no output record. -/
theorem question_resolution_rules (p : Practice) (qmap : String → Option Question) :
    (p.question_type = "saved" → resolvedQuestionId p = p.question_id) ∧
    (p.question_type ≠ "saved" → resolvedQuestionId p = p.reference_question_id) ∧
    (resolveQuestion qmap p = none → attemptCodes qmap p = []) ∧
    (∀ q, resolveQuestion qmap p = some q → q.ny_standards_codes = some [] →
      attemptCodes qmap p = []) ∧
    (∀ pre post : List Practice, attemptCodes qmap p = [] →
      computeMastery (pre ++ p :: post) qmap = computeMastery (pre ++ post) qmap) := by
  refine ⟨?_, ?_, ?_, ?_, ?_⟩
  · intro h
    simp [resolvedQuestionId, h]
  · intro h
    simp [resolvedQuestionId, h]
  · intro h
    simp [attemptCodes, h]
  · intro q hq hcodes
    simp [attemptCodes, hq, hcodes]
  · intro pre post hskip
    unfold computeMastery masteryFold
    rw [List.foldl_append, List.foldl_append, List.foldl_cons,
      processPractice_skip qmap _ p hskip]

/-- C7 (counterexample): the aggregation never fails — on an input whose
created_at is malformed it returns a normal result (JavaScript new Date
yields an Invalid Date rather than throwing), and no input at all makes
it return an error, refuting the claim that some malformed-timestamp
input fails with a parse error. -/
theorem malformed_timestamp_no_error :
    malformedAttempt.created_at = none ∧
    computeMasteryE [malformedAttempt] oneCatalog = Except.ok [malformedRecord] ∧
    ¬ ∃ (attempts : List Practice) (qmap : String → Option Question) (e : String),
      computeMasteryE attempts qmap = Except.error e := by
  refine ⟨rfl, ?_, ?_⟩
  · show Except.ok (computeMastery [malformedAttempt] oneCatalog) = _
    rw [malformed_eval]
  · rintro ⟨a, q, e, h⟩
    simp [computeMasteryE] at h

/-- C7 (amended): the aggregation is a total function with no failure
mode at all: even when the created_at of some attempt is malformed it returns
a normal result, and the invalid instant compares false against
everything, so it never displaces a recorded last_attempted. -/
theorem aggregation_total_on_malformed (attempts : List Practice)
    (qmap : String → Option Question) (p : Practice) (_hp : p ∈ attempts)
    (hbad : p.created_at = none) :
    computeMasteryE attempts qmap = Except.ok (computeMastery attempts qmap) ∧
    (∀ x, jsDateGt p.created_at x = false ∧ jsDateGt x p.created_at = false) := by
  refine ⟨rfl, ?_⟩
  intro x
  rw [hbad]
  cases x <;> simp [jsDateGt]

/-- C8: enrichment of the empty list is empty, and a standard whose
module_id (or topic_id) matches no row yields a null module (topic) in
both the batched and single-record variants — a miss is never an error. -/
theorem enrichment_null_safety :
    (∀ (modulesDb : List ModuleRow) (topicsDb : List TopicRow),
      enrichStandardsWithRelations [] modulesDb topicsDb = []) ∧
    (∀ (standards : List StandardRow) (modulesDb : List ModuleRow)
        (topicsDb : List TopicRow), ∀ s ∈ standards,
      ((∀ mo ∈ modulesDb, some mo.id ≠ s.module_id) →
        (enrichRow (fetchedModules standards modulesDb)
          (fetchedTopics standards topicsDb) s).module = none) ∧
      ((∀ t ∈ topicsDb, some t.id ≠ s.topic_id) →
        (enrichRow (fetchedModules standards modulesDb)
          (fetchedTopics standards topicsDb) s).topic = none) ∧
      enrichRow (fetchedModules standards modulesDb) (fetchedTopics standards topicsDb) s ∈
        enrichStandardsWithRelations standards modulesDb topicsDb) ∧
    (∀ (s : StandardRow) (modulesDb : List ModuleRow) (topicsDb : List TopicRow),
      ((∀ mo ∈ modulesDb, some mo.id ≠ s.module_id) →
        (enrichSingleStandard s modulesDb topicsDb).module = none) ∧
      ((∀ t ∈ topicsDb, some t.id ≠ s.topic_id) →
        (enrichSingleStandard s modulesDb topicsDb).topic = none)) := by
  refine ⟨?_, ?_, ?_⟩
  · intro modulesDb topicsDb
    rfl
  · intro standards modulesDb topicsDb s hs
    refine ⟨?_, ?_, ?_⟩
    · intro hmiss
      show (match s.module_id with
        | some mid => lastWithKey (fun m => m.id) (fetchedModules standards modulesDb) mid
        | none => none) = none
      cases hmid : s.module_id with
      | none => rfl
      | some mid =>
        have hnil : (fetchedModules standards modulesDb).filter
            (fun m => decide (m.id = mid)) = [] := by
          apply List.filter_eq_nil_iff.mpr
          intro mo hmo
          have hmo' : mo ∈ modulesDb := (List.mem_filter.mp hmo).1
          have := hmiss mo hmo'
          rw [hmid] at this
          simp
          intro heq
          exact this (by rw [heq])
        show ((fetchedModules standards modulesDb).filter
          (fun m => decide (m.id = mid))).getLast? = none
        rw [hnil]
        rfl
    · intro hmiss
      show (match s.topic_id with
        | some tid => lastWithKey (fun t => t.id) (fetchedTopics standards topicsDb) tid
        | none => none) = none
      cases htid : s.topic_id with
      | none => rfl
      | some tid =>
        have hnil : (fetchedTopics standards topicsDb).filter
            (fun t => decide (t.id = tid)) = [] := by
          apply List.filter_eq_nil_iff.mpr
          intro t ht
          have ht' : t ∈ topicsDb := (List.mem_filter.mp ht).1
          have := hmiss t ht'
          rw [htid] at this
          simp
          intro heq
          exact this (by rw [heq])
        show ((fetchedTopics standards topicsDb).filter
          (fun t => decide (t.id = tid))).getLast? = none
        rw [hnil]
        rfl
    · exact List.mem_map.mpr ⟨s, hs, rfl⟩
  · intro s modulesDb topicsDb
    constructor
    · intro hmiss
      show (match s.module_id with
        | some mid => singleRow (modulesDb.filter (fun m => m.id = mid))
        | none => none) = none
      cases hmid : s.module_id with
      | none => rfl
      | some mid =>
        have hnil : modulesDb.filter (fun m => decide (m.id = mid)) = [] := by
          apply List.filter_eq_nil_iff.mpr
          intro mo hmo
          have := hmiss mo hmo
          rw [hmid] at this
          simp
          intro heq
          exact this (by rw [heq])
        show singleRow (modulesDb.filter (fun m => decide (m.id = mid))) = none
        rw [hnil]
        rfl
    · intro hmiss
      show (match s.topic_id with
        | some tid => singleRow (topicsDb.filter (fun t => t.id = tid))
        | none => none) = none
      cases htid : s.topic_id with
      | none => rfl
      | some tid =>
        have hnil : topicsDb.filter (fun t => decide (t.id = tid)) = [] := by
          apply List.filter_eq_nil_iff.mpr
          intro t ht
          have := hmiss t ht
          rw [htid] at this
          simp
          intro heq
          exact this (by rw [heq])
        show singleRow (topicsDb.filter (fun t => decide (t.id = tid))) = none
        rw [hnil]
        rfl

/-- An environment that names an allowed CORS origin. -/
def envWithOrigin : Env :=
  { port := none, apiMount := none, corsAllowedOrigin := some "http://example.com",
    jwtExpiresIn := none }

/-- C9 (counterexample): the CORS origin is not environment-driven — for
an environment that specifies an allowed origin, the server still allows
only the hardcoded origin. -/
theorem cors_origin_ignores_env :
    envWithOrigin.corsAllowedOrigin = some "http://example.com" ∧
    corsOriginConfig envWithOrigin ≠ "http://example.com" := by
  refine ⟨rfl, ?_⟩
  decide

/-- C9 (amended): the listen port, path prefix and token expiry are
environment-driven with defaults, but the CORS allowed origin is the
fixed literal regardless of the environment. -/
theorem cors_origin_hardcoded (env : Env) :
    corsOriginConfig env = "http://localhost:8080" ∧
    (∀ s, s ≠ "" → env.port = some s → serverPort env = s) ∧
    (∀ s, s ≠ "" → env.apiMount = some s → apiBasePath env = s) ∧
    (∀ s, s ≠ "" → env.jwtExpiresIn = some s → tokenExpiresIn env = s) := by
  refine ⟨rfl, ?_, ?_, ?_⟩
  · intro s hs hv
    simp [serverPort, envOr, hv, hs]
  · intro s hs hv
    simp [apiBasePath, envOr, hv, hs]
  · intro s hs hv
    simp [tokenExpiresIn, envOr, hv, hs]

/-! Witnesses: each hypothesis-bearing claim theorem applied at a concrete
input. -/

/-- Witness for the record invariants at the first scenario record. -/
theorem mastery_record_invariants_witness :
    (scenRecord "A.1").total_attempts =
      (scenRecord "A.1").correct_count + (scenRecord "A.1").incorrect_count ∧
    1 ≤ (scenRecord "A.1").total_attempts ∧
    (scenRecord "A.1").mastery_percentage =
      (jsRound (((scenRecord "A.1").correct_count : ℚ) /
        ((scenRecord "A.1").total_attempts : ℚ) * 1000) : ℚ) / 10 ∧
    0 ≤ (scenRecord "A.1").mastery_percentage ∧
    (scenRecord "A.1").mastery_percentage ≤ 100 :=
  mastery_record_invariants [scenAttempt1, scenAttempt2] scenCatalog (scenRecord "A.1")
    (by rw [scenario_eval]; simp)

/-- Witness for occurrence counting at the duplicate-code record. -/
theorem total_counts_every_occurrence_witness :
    dupRecord.total_attempts = observationCount dupCatalog [dupAttempt] dupRecord.standard_code :=
  total_counts_every_occurrence [dupAttempt] dupCatalog dupRecord
    (by rw [dup_eval]; simp)

/-- Witness for recency at the first scenario record. -/
theorem last_attempted_is_max_witness :
    (scenRecord "A.1").last_attempted =
      listMax (contributingInstants scenCatalog [scenAttempt1, scenAttempt2]
        (scenRecord "A.1").standard_code) :=
  last_attempted_is_max [scenAttempt1, scenAttempt2] scenCatalog
    (by decide) (scenRecord "A.1") (by rw [scenario_eval]; simp)

/-- Witness for the latency average at the first scenario record. -/
theorem avg_of_truthy_latencies_witness :
    (scenRecord "A.1").avg_response_time_ms = some (jsRound
      (((collectedLatencies scenCatalog [scenAttempt1, scenAttempt2]
          (scenRecord "A.1").standard_code).sum : ℚ) /
        ((collectedLatencies scenCatalog [scenAttempt1, scenAttempt2]
          (scenRecord "A.1").standard_code).length : ℚ))) :=
  (avg_of_truthy_latencies [scenAttempt1, scenAttempt2] scenCatalog (scenRecord "A.1")
    (by rw [scenario_eval]; simp)).2 (by decide)

/-- An attempt whose effective question id is absent from every catalog
used here. -/
def missAttempt : Practice :=
  { correct := true, response_time_ms := none, created_at := some 3,
    module_id := none, topic_id := none, question_id := some "absent",
    question_type := "saved", reference_question_id := none }

/-- Witness for the resolution rules: a saved attempt uses question_id,
an unknown-typed attempt uses reference_question_id, and an attempt whose
id misses the catalog leaves the aggregation unchanged. -/
theorem question_resolution_rules_witness :
    resolvedQuestionId scenAttempt1 = scenAttempt1.question_id ∧
    resolvedQuestionId weirdAttempt = weirdAttempt.reference_question_id ∧
    computeMastery ([scenAttempt1] ++ missAttempt :: []) scenCatalog =
      computeMastery ([scenAttempt1] ++ []) scenCatalog :=
  ⟨(question_resolution_rules scenAttempt1 scenCatalog).1 (by decide),
   (question_resolution_rules weirdAttempt scenCatalog).2.1 (by decide),
   (question_resolution_rules missAttempt scenCatalog).2.2.2.2 [scenAttempt1] [] (by decide)⟩

/-- Witness for totality on the malformed-timestamp input. -/
theorem aggregation_total_on_malformed_witness :
    computeMasteryE [malformedAttempt] oneCatalog =
      Except.ok (computeMastery [malformedAttempt] oneCatalog) ∧
    (jsDateGt malformedAttempt.created_at (some 99) = false ∧
      jsDateGt (some 99) malformedAttempt.created_at = false) :=
  ⟨(aggregation_total_on_malformed [malformedAttempt] oneCatalog malformedAttempt
      (by simp) rfl).1,
   (aggregation_total_on_malformed [malformedAttempt] oneCatalog malformedAttempt
      (by simp) rfl).2 (some 99)⟩

/-- A standard whose module and topic ids miss every lookup used here. -/
def missStandard : StandardRow :=
  { id := "s1", standard_code := "X.1", description := none,
    module_id := some "m1", topic_id := some "t1", created_at := none }

/-- Witness for enrichment null-safety on empty lookups. -/
theorem enrichment_null_safety_witness :
    enrichStandardsWithRelations [] [] [] = [] ∧
    (enrichRow (fetchedModules [missStandard] []) (fetchedTopics [missStandard] [])
      missStandard).module = none ∧
    (enrichSingleStandard missStandard [] []).module = none ∧
    (enrichSingleStandard missStandard [] []).topic = none :=
  ⟨enrichment_null_safety.1 [] [],
   (enrichment_null_safety.2.1 [missStandard] [] [] missStandard (by simp)).1 (by simp),
   (enrichment_null_safety.2.2 missStandard [] []).1 (by simp),
   (enrichment_null_safety.2.2 missStandard [] []).2 (by simp)⟩

/-- A fully specified environment. -/
def envFull : Env :=
  { port := some "8081", apiMount := some "/api/v2",
    corsAllowedOrigin := some "http://example.com", jwtExpiresIn := some "12h" }

/-- Witness for the configuration semantics at a fully specified
environment: the hardcoded origin wins while the other three options are
environment-driven. -/
theorem cors_origin_hardcoded_witness :
    corsOriginConfig envFull = "http://localhost:8080" ∧
    serverPort envFull = "8081" ∧ apiBasePath envFull = "/api/v2" ∧
    tokenExpiresIn envFull = "12h" :=
  ⟨(cors_origin_hardcoded envFull).1,
   (cors_origin_hardcoded envFull).2.1 "8081" (by decide) rfl,
   (cors_origin_hardcoded envFull).2.2.1 "/api/v2" (by decide) rfl,
   (cors_origin_hardcoded envFull).2.2.2 "12h" (by decide) rfl⟩

end DashboardHub
